import Mathlib

/-!
# Virtlet: log shipping workers and image name resolution

A shallow embedding of `pkg/log/logger.go` (the tailing worker lifecycle
manager) and of the image name helpers of `pkg/libvirttools/image.go`,
followed by the properties established about them.

Modelling conventions
* A Go `string` is the sequence of its runes (`Str`); the texts handled here
  are valid UTF-8, where rune positions and byte positions agree up to width.
* Library calls (`strings`, `unicode`, `fmt`, `time`, `net/url`, `os`,
  `path/filepath`, channels) are modelled next to the code that uses them.
* A run-time panic and a returned `error` are the two ways an operation fails
  (`Failure`).
* The registry `map[string]chan *tail.Line` is either the nil map or an
  association list with one entry per key; the order of the list is the order
  in which `range` visits the map, so quantifying over lists covers every
  iteration order.
* `os.Stat` answers a file info, a not-exist error or another error; the code
  tells them apart with `os.IsNotExist` only.
* Concurrency is explicit: a `Worker` is split into its start, its loop and
  its exit, and whoever runs between two steps of the controller is given by
  a schedule.
-/

namespace Virtlet

/-! ## Strings -/

/-- Go `string`, as its runes. -/
abbrev Str := List Char

/-- The two ways a Go operation fails. -/
inductive Failure where
  /-- An `error` value handed back to the caller. -/
  | returned (err : String)
  /-- A run-time panic. -/
  | panicked (msg : String)
  deriving DecidableEq, Repr

/-- Go `unicode.IsSpace`: the Latin-1 cases of the switch, then the
`White_Space` range table. -/
def IsSpace (r : Char) : Bool :=
  if r.toNat ≤ 0xFF then
    r == '\t' || r == '\n' || r.toNat == 0x0B || r.toNat == 0x0C || r == '\r' || r == ' '
      || r.toNat == 0x85 || r.toNat == 0xA0
  else
    r.toNat == 0x1680 || (0x2000 ≤ r.toNat && r.toNat ≤ 0x200a) || r.toNat == 0x2028
      || r.toNat == 0x2029 || r.toNat == 0x202f || r.toNat == 0x205f || r.toNat == 0x3000

/-- Loop of Go `strings.lastIndexFunc`: the runes still to visit are given last
first, `i` is the loop index before the rune is decoded. -/
def lastIndexFuncAux (f : Char → Bool) (truth : Bool) : List Char → Nat → Int
  | [], _ => -1
  | r :: rest, i =>
    if f r == truth then ((i - 1 : Nat) : Int) else lastIndexFuncAux f truth rest (i - 1)

/-- Go `strings.lastIndexFunc`: index of the last rune with `f r == truth`, or -1. -/
def lastIndexFunc (s : Str) (f : Char → Bool) (truth : Bool) : Int :=
  lastIndexFuncAux f truth s.reverse s.length

/-- Go `strings.TrimRightFunc`: `s[0:i+1]` for the last index `i` whose rune
does not satisfy `f`. -/
def TrimRightFunc (s : Str) (f : Char → Bool) : Str :=
  let i := lastIndexFunc s f false
  s.take (i + 1).toNat

/-- Go `strings.Replace` with an empty `old`: `new` goes in front of the text
and after each rune, at most `n` times when `n ≥ 0`. -/
def replaceEmpty (new : Str) : Int → Str → Str
  | n, [] => if n = 0 then [] else new
  | n, c :: cs => if n = 0 then c :: cs else new ++ c :: replaceEmpty new (n - 1) cs

/-- Copy loop of Go `strings.Replace` for a non-empty `old`: `n` is the number
of replacements still allowed (negative: no limit), the second argument the
number of runes of a matched `old` still to skip. -/
def replaceAux (old new : Str) : Int → Nat → Str → Str
  | _, _, [] => []
  | n, k + 1, _ :: cs => replaceAux old new n k cs
  | n, 0, c :: cs =>
    if n != 0 && old.isPrefixOf (c :: cs) then
      new ++ replaceAux old new (n - 1) (old.length - 1) cs
    else c :: replaceAux old new n 0 cs

/-- Go `strings.Replace(s, old, new, n)`: the first `n` non-overlapping
instances of `old` replaced by `new`, all of them when `n < 0`. -/
def Replace (s old new : Str) (n : Int) : Str :=
  if old = new ∨ n = 0 then s
  else if old = [] then replaceEmpty new n s
  else replaceAux old new n 0 s

/-- Loop of Go `strings.Split` for a non-empty separator: the piece being
read is kept reversed, the number is the runes of a matched separator still to
skip. -/
def splitAux (sep : Str) : Nat → Str → Str → List Str
  | _, cur, [] => [cur.reverse]
  | k + 1, cur, _ :: cs => splitAux sep k cur cs
  | 0, cur, c :: cs =>
    if sep.isPrefixOf (c :: cs) then cur.reverse :: splitAux sep (sep.length - 1) [] cs
    else splitAux sep 0 (c :: cur) cs

/-- Go `strings.Split(s, sep)`. -/
def Split (s sep : Str) : List Str :=
  if sep = [] then s.map (fun c => [c]) else splitAux sep 0 [] s

/-- Go slice indexing `xs[i]`, which panics outside the bounds. -/
def index {α : Type} (xs : List α) (i : Int) : Except Failure α :=
  if i < 0 then .error (.panicked "index out of range")
  else match xs.get? i.toNat with
    | some x => .ok x
    | none => .error (.panicked "index out of range")

/-- What Go `fmt.Sprintf` adds for string operands that no verb consumed. -/
def sprintfExtra : List Str → Str
  | [] => []
  | args =>
    "%!(EXTRA ".toList
      ++ (", ".toList).intercalate (args.map fun a => "string=".toList ++ a) ++ [')']

/-- Go `fmt.Sprintf` for formats whose only verbs are `%s` and `%%` and whose
operands are strings. -/
def Sprintf : Str → List Str → Str
  | [], args => sprintfExtra args
  | [c], args => (if c = '%' then "%!(NOVERB)".toList else [c]) ++ sprintfExtra args
  | c :: d :: rest, args =>
    if c = '%' then
      if d = 's' then
        match args with
        | a :: args' => a ++ Sprintf rest args'
        | [] => "%!s(MISSING)".toList ++ Sprintf rest []
      else if d = '%' then '%' :: Sprintf rest args
      else c :: Sprintf (d :: rest) args
    else c :: Sprintf (d :: rest) args

/-! ## Time -/

/-- A Go `time.Time`, as the calendar fields `Format` reads from it: the date, the
clock and the zone offset in seconds east of UTC. -/
structure Time where
  year : Int
  month : Nat
  day : Nat
  hour : Nat
  minute : Nat
  second : Nat
  offset : Int
  deriving DecidableEq, Repr

/-- Go `time.appendInt`: the decimal digits of `x`, zero-padded to `width`,
after a minus sign when `x` is negative. -/
def appendInt (x : Int) (width : Nat) : Str :=
  let ds := Nat.toDigits 10 x.natAbs
  (if x < 0 then ['-'] else []) ++ List.replicate (width - ds.length) '0' ++ ds

/-- The zone of layout element `Z07:00`: `Z` for UTC, else sign, hours and minutes. -/
def formatZone (offset : Int) : Str :=
  if offset = 0 then ['Z']
  else
    let zone := Int.tdiv offset 60
    (if zone < 0 then ['-'] else ['+'])
      ++ appendInt ((zone.natAbs / 60 : Nat) : Int) 2 ++ [':']
      ++ appendInt ((zone.natAbs % 60 : Nat) : Int) 2

/-- Go `t.Format(time.RFC3339)`, layout `2006-01-02T15:04:05Z07:00`. -/
def Time.FormatRFC3339 (t : Time) : Str :=
  appendInt t.year 4 ++ ['-'] ++ appendInt t.month 2 ++ ['-'] ++ appendInt t.day 2 ++ ['T']
    ++ appendInt t.hour 2 ++ [':'] ++ appendInt t.minute 2 ++ [':'] ++ appendInt t.second 2
    ++ formatZone t.offset

/-! ## pkg/log/logger.go: the line converter -/

/-- Source `escapeLine`. -/
def escapeLine (line : Str) : Str :=
  let line := TrimRightFunc line IsSpace
  let line := Replace line ['"'] ['\\', '"'] (-1)
  line

/-- A `tail.Line`: the text of the line and the time it was read. -/
structure Line where
  Text : Str
  Time : Time
  deriving DecidableEq, Repr

/-- The raw string literal that `Worker` hands to `fmt.Sprintf`. -/
def recordFormat : Str :=
  "\x7b\"time\": \"%s\", \"stream\": \"stdout\",\"log\":\"%s\\n\"\x7d".toList

/-- The two assignments to `converted` in the loop of `Worker`. -/
def convertLine (line : Line) : Str :=
  let converted := Sprintf recordFormat [line.Time.FormatRFC3339, escapeLine line.Text]
  let converted := converted ++ ['\n']
  converted

/-- Go `f.WriteString` on a file opened with `O_APPEND`: the text goes to the end
of the file when the write succeeds; a failed write leaves the file as it was. -/
def WriteString (file : Str) (ok : Bool) (s : Str) : Str :=
  if ok then file ++ s else file

/-- The `for line := range t.Lines` loop of `Worker` on the content of the output
file: the lines are those delivered until the channel is closed, each with
whether its write succeeds (the loop ignores the result of the write). -/
def workerLoop : Str → List (Line × Bool) → Str
  | file, [] => file
  | file, (line, ok) :: rest => workerLoop (WriteString file ok (convertLine line)) rest

/-! ### Reading the output back -/

/-- The newline-terminated records of a text, in order; text after the last
newline is an unterminated record. -/
def recordsAux : Str → Str → List Str
  | cur, [] => if cur = [] then [] else [cur.reverse]
  | cur, c :: cs => if c = '\n' then cur.reverse :: recordsAux [] cs else recordsAux (c :: cur) cs

/-- The records of an output file. -/
def records (out : Str) : List Str := recordsAux [] out

/-- Quote-unescaping: every occurrence of backslash-double-quote becomes a
double quote. -/
def unescapeQuotes (s : Str) : Str := Replace s ['\\', '"'] ['"'] (-1)

/-- Each double quote prefixed by a backslash, every other rune kept. -/
def prefixQuotes : Str → Str
  | [] => []
  | c :: cs => if c = '"' then '\\' :: '"' :: prefixQuotes cs else c :: prefixQuotes cs

/-- Number of consecutive backslashes at the end of a text. -/
def trailingBackslashes (pre : Str) : Nat :=
  (pre.reverse.takeWhile (fun c => c == '\\')).length

/-- Whether every double quote of a text is immediately preceded by an odd number of
consecutive backslashes, which is what keeps it from ending a quoted JSON field. -/
def quotesEscaped (s : Str) : Bool :=
  (List.range s.length).all fun i =>
    s.get? i != some '"' || trailingBackslashes (s.take i) % 2 == 1

/-- The record the spec describes for a line read at a time, without its final
newline: the fixed shape, stream `stdout`, and as log the text with its trailing
whitespace stripped and each double quote prefixed by a backslash, then the two
characters backslash and n. -/
def recordBody (t : Time) (text : Str) : Str :=
  "\x7b\"time\": \"".toList ++ t.FormatRFC3339 ++ "\", \"stream\": \"stdout\",\"log\":\"".toList
    ++ prefixQuotes (TrimRightFunc text IsSpace) ++ ['\\', 'n', '"', '}']

/-! ## pkg/libvirttools/image.go -/

/-- The part of a Go `url.URL` the image helpers read. -/
structure URL where
  Path : Str
  deriving DecidableEq, Repr

/-- Source `stripTagFromImageName`: element 0 of the split at `:`. -/
def stripTagFromImageName (imageName : Str) : Except Failure Str :=
  index (Split imageName [':']) 0

/-- Source `ImageNameToVolumeName`, over the URL parser it calls (`url.Parse`):
an error of the parser is returned, else the last element of the path split at
`/`. -/
def ImageNameToVolumeName (Parse : Str → Except Failure URL) (imageName : Str) :
    Except Failure Str := do
  let stripped ← stripTagFromImageName imageName
  let u ← Parse stripped
  let segments := Split u.Path ['/']
  let volumeName ← index segments ((segments.length : Int) - 1)
  return volumeName

/-- References that Go `url.Parse` returns whole as `Path`: only letters, digits and
`. - _ / :`, not starting with `//`, and without a colon in the first segment, so
that there is no scheme, authority, query, fragment or escape to take out. -/
def plainReference (s : Str) : Bool :=
  s.all (fun c => c.isAlphanum || c == '.' || c == '-' || c == '_' || c == '/' || c == ':')
    && !(['/', '/'].isPrefixOf s)
    && !((s.takeWhile (fun c => c != '/')).contains ':')

/-- Go `url.Parse` on plain references, where it answers the text as `Path`. Other
texts are outside what is modelled and are reported as an error here. -/
def ParsePlain (rawURL : Str) : Except Failure URL :=
  if plainReference rawURL then .ok { Path := rawURL }
  else .error (.returned "parse: reference outside the modelled ones")

/-! ## pkg/log/logger.go: registry and lifecycle -/

/-- A file path, as its elements. -/
abbrev Path := List String

/-- Go `filepath.Join` of a folder and plain names. -/
def Join (folder : Path) (elems : List String) : Path := folder ++ elems

/-- Go `filepath.Dir`: the path without its last element. -/
def Dir (p : Path) : Path := p.dropLast

/-- An entry of `ioutil.ReadDir`. -/
structure FileInfo where
  Name : String
  IsDir : Bool
  deriving DecidableEq, Repr

/-- What Go `os.Stat` answers for a path. -/
inductive StatResult where
  /-- A `FileInfo` and a nil error; `isDir` tells whether the path is a directory. -/
  | info (isDir : Bool)
  /-- An error for which `os.IsNotExist` holds. -/
  | notExist
  /-- Any other error, such as `ENOTDIR` or `EACCES`. -/
  | failed (err : String)
  deriving DecidableEq, Repr

/-- Go `os.IsNotExist` on the error of an `os.Stat`. -/
def IsNotExist : StatResult → Bool
  | .notExist => true
  | _ => false

/-- What the logger sees of the file system: the answers of `ioutil.ReadDir` and of
`os.Stat`. -/
structure FS where
  ReadDir : Path → Except Failure (List FileInfo)
  Stat : Path → StatResult

/-- What is at a path of a directory tree. -/
inductive Node where
  | file
  | dir
  deriving DecidableEq, Repr

/-- A directory tree: the paths that exist, each with what is there. -/
abbrev Tree := List (Path × Node)

/-- What is at a path of a tree, `none` when nothing is. -/
def Tree.node (t : Tree) (p : Path) : Option Node :=
  match t with
  | [] => none
  | (q, k) :: rest => if q = p then some k else Tree.node rest p

/-- Path resolution of `os.Stat` in a tree, from the part of the path walked so far:
a missing element gives the not-exist error, a regular file in the place of a
directory gives `ENOTDIR`. -/
def statWalk (t : Tree) : Path → List String → StatResult
  | cur, [] =>
    match t.node cur with
    | none => .notExist
    | some k => .info (decide (k = .dir))
  | cur, x :: rest =>
    match t.node cur with
    | none => .notExist
    | some .file => .failed "not a directory"
    | some .dir => statWalk t (cur ++ [x]) rest

/-- Go `os.Stat` in a tree. -/
def Tree.Stat (t : Tree) (p : Path) : StatResult :=
  match p with
  | [] => .info true
  | x :: rest => statWalk t [x] rest

/-- Go `ioutil.ReadDir` in a tree: the entries right under a directory, in the order
of the tree, which the examples keep sorted by name. -/
def Tree.ReadDir (t : Tree) (p : Path) : Except Failure (List FileInfo) :=
  match t.Stat p with
  | .info true =>
    .ok (t.filterMap fun e =>
      if e.1.dropLast = p then e.1.getLast?.map (fun n => ⟨n, decide (e.2 = .dir)⟩) else none)
  | .info false => .error (.returned "not a directory")
  | .notExist => .error (.returned "no such file or directory")
  | .failed err => .error (.returned err)

/-- The file system of a tree. -/
def FS.ofTree (t : Tree) : FS :=
  { ReadDir := t.ReadDir
    Stat := t.Stat }

/-- A channel value (`t.Lines`), never nil. -/
abbrev Chan := Nat

/-- The entries of a Go `map[string]chan *tail.Line` that has been made. -/
abbrev WorkerMap := List (String × Chan)

/-- Go `m[k]`: `none` stands for the nil channel read at an absent key. -/
def mapGet (m : WorkerMap) (k : String) : Option Chan :=
  match m with
  | [] => none
  | (k', c) :: rest => if k' = k then some c else mapGet rest k

/-- Go `m[k] = c` on a map that has been made. -/
def mapSet (m : WorkerMap) (k : String) (c : Chan) : WorkerMap :=
  match m with
  | [] => [(k, c)]
  | (k', c') :: rest => if k' = k then (k, c) :: rest else (k', c') :: mapSet rest k c

/-- Go `delete(m, k)`. -/
def mapDelete (m : WorkerMap) (k : String) : WorkerMap :=
  match m with
  | [] => []
  | (k', c) :: rest => if k' = k then mapDelete rest k else (k', c) :: mapDelete rest k

/-- Source `VirtletLoggerConf`. -/
structure VirtletLoggerConf where
  VirtletFolder : Path
  VirtletFilename : String
  KubernetesFolder : Path
  KubernetesFilename : String
  deriving DecidableEq, Repr

/-- Source `virtletLogger`. `workers` is `none` for the nil map, which is what the
field holds until `SpawnWorkers` makes the map. -/
structure virtletLogger where
  Config : VirtletLoggerConf
  workers : Option WorkerMap
  deriving DecidableEq, Repr

/-- What reading `v.workers` sees, by index, `len` or `range`: the entries of the
map, none for the nil map. -/
def virtletLogger.entries (v : virtletLogger) : WorkerMap :=
  match v.workers with
  | none => []
  | some m => m

/-- Source `NewVirtletLogger`: the two file names are fixed and `workers` is left
nil. -/
def NewVirtletLogger (virtletFolder kubernetesFolder : Path) : virtletLogger :=
  { Config :=
      { VirtletFolder := virtletFolder
        VirtletFilename := "raw.log"
        KubernetesFolder := kubernetesFolder
        KubernetesFilename := "_0.log" }
    workers := none }

/-- The arguments of one `go v.Worker(inputFile, outputFile, sandboxId)`. -/
structure WorkerCall where
  inputFile : Path
  outputFile : Path
  sandboxId : String
  deriving DecidableEq, Repr

/-- Body of the loop of `SpawnWorkers` for one entry of the listing: the `Worker`
it starts, if any. The two `os.Stat` calls skip the entry only on an error for
which `os.IsNotExist` holds. -/
def spawnOne (fs : FS) (v : virtletLogger) (vmFolder : FileInfo) : Option WorkerCall :=
  let sandboxId := vmFolder.Name
  if (mapGet v.entries sandboxId).isSome then none
  else
    let inputFile := Join v.Config.VirtletFolder [sandboxId, v.Config.VirtletFilename]
    let outputFile := Join v.Config.KubernetesFolder [sandboxId, v.Config.KubernetesFilename]
    if !vmFolder.IsDir then none
    else if IsNotExist (fs.Stat inputFile) then none
    else if IsNotExist (fs.Stat (Dir outputFile)) then none
    else some { inputFile := inputFile, outputFile := outputFile, sandboxId := sandboxId }

/-- The first lines of `SpawnWorkers`: a nil map is replaced by an empty one. -/
def makeWorkers (v : virtletLogger) : virtletLogger :=
  match v.workers with
  | none => { v with workers := some [] }
  | some _ => v

/-- Source `SpawnWorkers`: the logger it leaves, and the error of `ReadDir` or else
the `Worker`s started, in the order of the listing. -/
def SpawnWorkers (fs : FS) (v : virtletLogger) :
    virtletLogger × Except Failure (List WorkerCall) :=
  let v := makeWorkers v
  match fs.ReadDir v.Config.VirtletFolder with
  | .error err => (v, .error err)
  | .ok vmFolders => (v, .ok (vmFolders.filterMap (spawnOne fs v)))

/-- What the start of `Worker` meets: whether the output file exists, whether
creating and opening it succeed, and the channel of `tail.TailFile` when that
succeeds. -/
structure StartEnv where
  outputExists : Bool
  createOk : Bool
  openOk : Bool
  tail : Option Chan
  deriving DecidableEq, Repr

/-- How the start of a `Worker` ends. -/
inductive StartResult where
  /-- It printed the failure and returned; the logger is as it was. -/
  | returnedEarly
  /-- It panicked. -/
  | panicked (msg : String)
  /-- It registered and goes on to its loop, the logger being this one. -/
  | registered (v : virtletLogger)
  deriving DecidableEq, Repr

/-- The registration step of `Worker`, `v.workers[sandboxId] = t.Lines`: an
assignment to an entry of the nil map panics. -/
def Worker.register (sandboxId : String) (lines : Chan) (v : virtletLogger) : StartResult :=
  match v.workers with
  | none => .panicked "assignment to entry in nil map"
  | some m => .registered { v with workers := some (mapSet m sandboxId lines) }

/-- Source `Worker` up to its loop. -/
def Worker.start (env : StartEnv) (sandboxId : String) (v : virtletLogger) : StartResult :=
  if !env.outputExists && !env.createOk then .returnedEarly
  else if !env.openOk then .returnedEarly
  else match env.tail with
    | none => .returnedEarly
    | some lines => Worker.register sandboxId lines v

/-- Source `Worker` after its loop: `delete(v.workers, sandboxId)`, which does nothing
on the nil map. -/
def Worker.finish (sandboxId : String) (v : virtletLogger) : virtletLogger :=
  match v.workers with
  | none => v
  | some m => { v with workers := some (mapDelete m sandboxId) }

/-- The given workers run their registration step one after the other. -/
def registerAll : List (String × Chan) → virtletLogger → StartResult
  | [], v => .registered v
  | r :: rest, v =>
    match Worker.register r.1 r.2 v with
    | .registered v' => registerAll rest v'
    | other => other

/-- The logger together with the channels that have been closed. -/
structure World where
  v : virtletLogger
  closed : List Chan
  deriving DecidableEq, Repr

/-- A run of the controller: the world it ends in, or the panic that stopped it with
the world at that moment. -/
abbrev Run := Except (Failure × World) World

/-- Go `close(ch)`: closing a closed channel panics. -/
def closeChan (ch : Chan) (w : World) : Run :=
  if ch ∈ w.closed then .error (.panicked "close of closed channel", w)
  else .ok { w with closed := ch :: w.closed }

/-- Source `stopWorker`. -/
def stopWorker (sandboxId : String) (w : World) : Run :=
  match mapGet w.v.entries sandboxId with
  | some ch => closeChan ch w
  | none => .ok w

/-- The loop of `StopObsoleteWorkers` over the keys still to visit. -/
def stopObsoleteLoop (fs : FS) : List String → World → Run
  | [], w => .ok w
  | sandboxId :: rest, w =>
    if IsNotExist (fs.Stat (Join w.v.Config.KubernetesFolder [sandboxId])) then
      match stopWorker sandboxId w with
      | .ok w' => stopObsoleteLoop fs rest w'
      | .error e => .error e
    else stopObsoleteLoop fs rest w

/-- Source `StopObsoleteWorkers`. -/
def StopObsoleteWorkers (fs : FS) (w : World) : Run :=
  stopObsoleteLoop fs (w.v.entries.map Prod.fst) w

/-- The first loop of `StopAllWorkers` over the keys still to visit. -/
def stopAllLoop : List String → World → Run
  | [], w => .ok w
  | sandboxId :: rest, w =>
    match stopWorker sandboxId w with
    | .ok w' => stopAllLoop rest w'
    | .error e => .error e

/-- What a worker does while the controller sleeps: one whose channel is closed
leaves its loop and deregisters, one that had been started registers. -/
inductive Event where
  | exit (sandboxId : String)
  | register (sandboxId : String) (lines : Chan)
  deriving DecidableEq, Repr

/-- Effect of an event. A worker leaves its loop only once its channel is closed; a
panic of a worker ends the process. -/
def Event.apply (w : World) : Event → Run
  | .exit sandboxId =>
    match mapGet w.v.entries sandboxId with
    | some ch =>
      if ch ∈ w.closed then .ok { w with v := Worker.finish sandboxId w.v } else .ok w
    | none => .ok w
  | .register sandboxId lines =>
    match Worker.register sandboxId lines w.v with
    | .registered v' => .ok { w with v := v' }
    | .panicked msg => .error (.panicked msg, w)
    | .returnedEarly => .ok w

/-- The events of one sleep, in order. -/
def applyAll : List Event → World → Run
  | [], w => .ok w
  | e :: rest, w =>
    match Event.apply w e with
    | .ok w' => applyAll rest w'
    | .error err => .error err

/-- How a call of `StopAllWorkers` stands at the end of a schedule. -/
inductive StopAll where
  /-- It returned, in this world. -/
  | returned (w : World)
  /-- The process panicked. -/
  | panicked (w : World)
  /-- It is still in its polling loop. -/
  | polling (w : World)
  deriving DecidableEq, Repr

/-- The polling loop of `StopAllWorkers`: each element of the schedule is what the
workers do during one `time.Sleep`. -/
def pollLoop : List (List Event) → World → StopAll
  | [], w => if w.v.entries.length = 0 then .returned w else .polling w
  | evs :: rest, w =>
    if w.v.entries.length = 0 then .returned w
    else
      match applyAll evs w with
      | .ok w' => pollLoop rest w'
      | .error err => .panicked err.2

/-- Source `StopAllWorkers`, run against a schedule of the workers, who take their
steps while the controller sleeps. -/
def StopAllWorkers (sched : List (List Event)) (w : World) : StopAll :=
  match stopAllLoop (w.v.entries.map Prod.fst) w with
  | .error e => .panicked e.2
  | .ok w' => pollLoop sched w'

/-- What `SpawnWorkers` asks of an entry of the listing: it is a directory and
`os.Stat` reports neither its raw input file nor its structured-output directory,
the output root joined with the id, as not existing. -/
def eligible (fs : FS) (v : virtletLogger) (e : FileInfo) : Prop :=
  e.IsDir = true
    ∧ IsNotExist (fs.Stat (Join v.Config.VirtletFolder [e.Name, v.Config.VirtletFilename]))
        = false
    ∧ IsNotExist (fs.Stat (Join v.Config.KubernetesFolder [e.Name])) = false

instance (fs : FS) (v : virtletLogger) (e : FileInfo) : Decidable (eligible fs v e) := by
  unfold eligible
  infer_instance

/-- The `Worker` call for an InstanceID. -/
def workerCall (v : virtletLogger) (sandboxId : String) : WorkerCall :=
  { inputFile := Join v.Config.VirtletFolder [sandboxId, v.Config.VirtletFilename]
    outputFile := Join v.Config.KubernetesFolder [sandboxId, v.Config.KubernetesFilename]
    sandboxId := sandboxId }

/-- No registered worker has been signalled yet: the registry has one entry per id,
the channels registered are distinct, and none of them is closed. -/
def fresh (w : World) : Prop :=
  (w.v.entries.map Prod.fst).Nodup ∧ (w.v.entries.map Prod.snd).Nodup
    ∧ ∀ ch ∈ w.v.entries.map Prod.snd, ch ∉ w.closed

instance (w : World) : Decidable (fresh w) := by
  unfold fresh
  infer_instance

/-- The tree of the examples: the raw-input root `virtlet` holds the directories `A`
and `B`, each with its `raw.log`, and the file `notes.txt`; the output root
`kubernetes` holds the directory of `A` and none for `B`. -/
def exampleTree : Tree :=
  [(["virtlet"], .dir), (["virtlet", "A"], .dir), (["virtlet", "A", "raw.log"], .file),
   (["virtlet", "B"], .dir), (["virtlet", "B", "raw.log"], .file),
   (["virtlet", "notes.txt"], .file),
   (["kubernetes"], .dir), (["kubernetes", "A"], .dir)]

/-- The file system of the examples. -/
def exampleFS : FS := FS.ofTree exampleTree

/-- A file system for the examples in which no output directory exists. -/
def goneFS : FS := FS.ofTree [(["kubernetes"], .dir)]

/-- A tree in which the output root `kubernetes` is a regular file, so that no
output directory exists and `os.Stat` of one fails with `ENOTDIR`. -/
def fileRootTree : Tree :=
  [(["virtlet"], .dir), (["virtlet", "A"], .dir), (["virtlet", "A", "raw.log"], .file),
   (["kubernetes"], .file)]

/-- A tree in which the output path of `A` is a regular file, not a directory. -/
def fileOutputTree : Tree :=
  [(["virtlet"], .dir), (["virtlet", "A"], .dir), (["virtlet", "A", "raw.log"], .file),
   (["kubernetes"], .dir), (["kubernetes", "A"], .file)]

/-- The logger of the examples, its map made, with the given registry. -/
def exampleLogger (workers : WorkerMap) : virtletLogger :=
  { NewVirtletLogger ["virtlet"] ["kubernetes"] with workers := some workers }

/-! # Properties -/

/-! ## Library lemmas -/

theorem lastIndexFuncAux_false (f : Char → Bool) (rev : List Char) :
    (lastIndexFuncAux f false rev rev.length + 1).toNat = (rev.dropWhile f).length := by
  induction rev with
  | nil => simp [lastIndexFuncAux]
  | cons r rest ih =>
    cases hf : f r with
    | false =>
      simp [lastIndexFuncAux, hf, List.dropWhile]
    | true =>
      simpa [lastIndexFuncAux, hf, List.dropWhile] using ih

theorem TrimRightFunc_eq (s : Str) (f : Char → Bool) :
    TrimRightFunc s f = (s.reverse.dropWhile f).reverse := by
  have hs : s = (s.reverse.dropWhile f).reverse ++ (s.reverse.takeWhile f).reverse := by
    rw [← List.reverse_append, List.takeWhile_append_dropWhile, List.reverse_reverse]
  unfold TrimRightFunc lastIndexFunc
  simp only []
  have hl := lastIndexFuncAux_false f s.reverse
  rw [List.length_reverse] at hl
  rw [hl]
  generalize hd : (s.reverse.dropWhile f) = d at hs ⊢
  generalize (s.reverse.takeWhile f) = t at hs
  rw [hs]
  exact List.take_left' (by simp)

/-- Trimming splits a text into the part kept and the whitespace dropped. -/
theorem TrimRightFunc_split (s : Str) (f : Char → Bool) :
    s = TrimRightFunc s f ++ (s.reverse.takeWhile f).reverse
      ∧ (∀ c ∈ (s.reverse.takeWhile f).reverse, f c = true)
      ∧ (∀ h : TrimRightFunc s f ≠ [], f ((TrimRightFunc s f).getLast h) = false) := by
  refine ⟨?_, ?_, ?_⟩
  · rw [TrimRightFunc_eq, ← List.reverse_append, List.takeWhile_append_dropWhile,
      List.reverse_reverse]
  · intro c hc
    rw [List.mem_reverse] at hc
    exact List.mem_takeWhile_imp hc
  · intro h
    have hne : s.reverse.dropWhile f ≠ [] := by
      intro h0
      apply h
      rw [TrimRightFunc_eq, h0]
      rfl
    have h1 : (TrimRightFunc s f).getLast h = (s.reverse.dropWhile f).head hne := by
      simp [TrimRightFunc_eq]
    rw [h1]
    have := List.head_dropWhile_not f s.reverse hne
    simpa using this

theorem TrimRightFunc_mem (s : Str) (f : Char → Bool) (c : Char)
    (hc : c ∈ TrimRightFunc s f) : c ∈ s := by
  rw [TrimRightFunc_eq, List.mem_reverse] at hc
  exact List.mem_reverse.mp ((List.dropWhile_sublist f).subset hc)

theorem replaceAux_quote (t : Str) : ∀ n : Int, n < 0 →
    replaceAux ['"'] ['\\', '"'] n 0 t = prefixQuotes t := by
  induction t with
  | nil => intro n _; rfl
  | cons c cs ih =>
    intro n hn
    have hn0 : (n != 0) = true := by simp; omega
    by_cases hc : c = '"'
    · subst hc
      simp [replaceAux, prefixQuotes, hn0, List.isPrefixOf, ih (n - 1) (by omega)]
    · simp [replaceAux, prefixQuotes, hn0, List.isPrefixOf, hc, ih n hn]
      intro h
      exact absurd h.symm hc

theorem Replace_quote (t : Str) : Replace t ['"'] ['\\', '"'] (-1) = prefixQuotes t := by
  unfold Replace
  rw [if_neg (by decide), if_neg (by decide)]
  exact replaceAux_quote t (-1) (by decide)

theorem escapeLine_eq (line : Str) :
    escapeLine line = prefixQuotes (TrimRightFunc line IsSpace) := by
  unfold escapeLine
  exact Replace_quote _

theorem prefixQuotes_head (t : Str) : ∀ rest, prefixQuotes t ≠ '"' :: rest := by
  intro rest
  cases t with
  | nil => simp [prefixQuotes]
  | cons c cs =>
    by_cases hc : c = '"'
    · subst hc; simp [prefixQuotes]
    · simp [prefixQuotes, hc]

/-- What `escapeLine` does achieve: every double quote of its output comes right
after a backslash. -/
theorem prefixQuotes_quote_preceded (t : Str) : ∀ pre rest : Str,
    prefixQuotes t = pre ++ '"' :: rest → ∃ pre', pre = pre' ++ ['\\'] := by
  induction t with
  | nil => intro pre rest h; simp [prefixQuotes] at h
  | cons c cs ih =>
    intro pre rest h
    by_cases hc : c = '"'
    · subst hc
      simp only [prefixQuotes, if_true] at h
      match pre, h with
      | [], h => simp at h
      | [x], h =>
        simp only [List.singleton_append, List.cons.injEq] at h
        exact ⟨[], by simp [← h.1]⟩
      | x :: y :: pre2, h =>
        simp only [List.cons_append, List.cons.injEq] at h
        obtain ⟨pre', hp⟩ := ih pre2 rest h.2.2
        exact ⟨x :: y :: pre', by simp [hp]⟩
    · simp only [prefixQuotes, if_neg hc] at h
      match pre, h with
      | [], h =>
        simp only [List.nil_append, List.cons.injEq] at h
        exact absurd h.1 hc
      | x :: pre2, h =>
        simp only [List.cons_append, List.cons.injEq] at h
        obtain ⟨pre', hp⟩ := ih pre2 rest h.2
        exact ⟨x :: pre', by simp [hp]⟩

theorem replaceAux_unquote (t : Str) : ∀ n : Int, n < 0 →
    replaceAux ['\\', '"'] ['"'] n 0 (prefixQuotes t) = t := by
  induction t with
  | nil => intro n _; rfl
  | cons c cs ih =>
    intro n hn
    have hn0 : (n != 0) = true := by simp; omega
    by_cases hc : c = '"'
    · subst hc
      simp [replaceAux, prefixQuotes, hn0, List.isPrefixOf, ih (n - 1) (by omega)]
    · have hp : List.isPrefixOf ['\\', '"'] (c :: prefixQuotes cs) = false := by
        cases hq : prefixQuotes cs with
        | nil => simp [List.isPrefixOf]
        | cons d ds =>
          have hd : d ≠ '"' := by
            intro h; subst h; exact prefixQuotes_head cs ds hq
          simp [List.isPrefixOf]
          intro _ h
          exact absurd h.symm hd
      simp only [prefixQuotes, if_neg hc, replaceAux, hp, Bool.and_false]
      simp [ih n hn]

theorem unescape_prefixQuotes (t : Str) : unescapeQuotes (prefixQuotes t) = t := by
  unfold unescapeQuotes Replace
  rw [if_neg (by decide), if_neg (by decide)]
  exact replaceAux_unquote t (-1) (by decide)

theorem Sprintf_recordFormat (a b : Str) :
    Sprintf recordFormat [a, b]
      = "\x7b\"time\": \"".toList ++ a ++ "\", \"stream\": \"stdout\",\"log\":\"".toList ++ b
          ++ ['\\', 'n', '"', '}'] := by
  simp [recordFormat, Sprintf, sprintfExtra]

theorem ite_ne_newline (p : Prop) [Decidable p] (c d : Char) (hc : c ≠ '\n') (hd : d ≠ '\n') :
    (if p then c else d) ≠ '\n' := by
  split_ifs <;> assumption

theorem digitChar_ne_newline (n : Nat) : Nat.digitChar n ≠ '\n' := by
  unfold Nat.digitChar
  repeat (first | decide | refine ite_ne_newline _ _ _ (by decide) ?_)

theorem toDigitsCore_no_newline : ∀ (fuel n : Nat) (ds : List Char),
    '\n' ∉ ds → '\n' ∉ Nat.toDigitsCore 10 fuel n ds := by
  intro fuel
  induction fuel with
  | zero => intro n ds h; simpa [Nat.toDigitsCore] using h
  | succ k ih =>
    intro n ds h
    have hd : '\n' ∉ Nat.digitChar (n % 10) :: ds := by
      simp only [List.mem_cons, not_or]
      exact ⟨fun e => digitChar_ne_newline _ e.symm, h⟩
    unfold Nat.toDigitsCore
    simp only []
    split_ifs
    · exact hd
    · exact ih _ _ hd

theorem appendInt_no_newline (x : Int) (w : Nat) : '\n' ∉ appendInt x w := by
  unfold appendInt
  have h1 : '\n' ∉ Nat.toDigits 10 x.natAbs := toDigitsCore_no_newline _ _ _ (by simp)
  simp only [List.mem_append, not_or]
  refine ⟨⟨?_, ?_⟩, h1⟩
  · split_ifs <;> simp
  · intro h
    have := List.eq_of_mem_replicate h
    exact absurd this (by decide)

theorem formatZone_no_newline (o : Int) : '\n' ∉ formatZone o := by
  unfold formatZone
  split_ifs
  · simp
  · simp only [List.mem_append, not_or]
    refine ⟨⟨⟨?_, appendInt_no_newline _ _⟩, by simp⟩, appendInt_no_newline _ _⟩
    split_ifs <;> simp

theorem FormatRFC3339_no_newline (t : Time) : '\n' ∉ t.FormatRFC3339 := by
  unfold Time.FormatRFC3339
  simp only [List.mem_append, not_or]
  refine ⟨⟨⟨⟨⟨⟨⟨⟨⟨⟨⟨appendInt_no_newline _ _, ?_⟩, appendInt_no_newline _ _⟩, ?_⟩,
    appendInt_no_newline _ _⟩, ?_⟩, appendInt_no_newline _ _⟩, ?_⟩, appendInt_no_newline _ _⟩, ?_⟩,
    appendInt_no_newline _ _⟩, formatZone_no_newline _⟩ <;> simp

theorem prefixQuotes_no_newline (t : Str) (h : '\n' ∉ t) : '\n' ∉ prefixQuotes t := by
  induction t with
  | nil => simp [prefixQuotes]
  | cons c cs ih =>
    simp only [List.mem_cons, not_or] at h
    have := ih h.2
    by_cases hc : c = '"'
    · simp [prefixQuotes, hc, this]
    · simp [prefixQuotes, hc, this]
      exact h.1

theorem escapeLine_no_newline (t : Str) (h : '\n' ∉ t) : '\n' ∉ escapeLine t := by
  rw [escapeLine_eq]
  exact prefixQuotes_no_newline _ (fun hc => h (TrimRightFunc_mem _ _ _ hc))

theorem recordsAux_line (b : Str) : ∀ (cur rest : Str), '\n' ∉ b →
    recordsAux cur (b ++ '\n' :: rest) = (cur.reverse ++ b) :: recordsAux [] rest := by
  induction b with
  | nil => intro cur rest _; simp [recordsAux]
  | cons c cs ih =>
    intro cur rest h
    simp only [List.mem_cons, not_or] at h
    have hc : c ≠ '\n' := fun e => h.1 e.symm
    simp [recordsAux, hc, ih (c :: cur) rest h.2]

theorem records_join (bodies : List Str) (h : ∀ b ∈ bodies, '\n' ∉ b) :
    records ((bodies.map (fun b => b ++ ['\n'])).flatten) = bodies := by
  induction bodies with
  | nil => simp [records, recordsAux]
  | cons b bs ih =>
    have hb := h b (List.mem_cons_self _ _)
    have hbs := ih (fun x hx => h x (List.mem_cons_of_mem _ hx))
    unfold records at hbs ⊢
    simp only [List.map_cons, List.flatten_cons, List.append_assoc, List.singleton_append]
    rw [recordsAux_line b [] _ hb, hbs]
    simp

theorem workerLoop_ok (evs : List (Line × Bool)) : ∀ file : Str, (∀ e ∈ evs, e.2 = true) →
    workerLoop file evs = file ++ (evs.map (fun e => convertLine e.1)).flatten := by
  induction evs with
  | nil => intro file _; simp [workerLoop]
  | cons e es ih =>
    intro file h
    obtain ⟨line, ok⟩ := e
    have hok : ok = true := h (line, ok) (List.mem_cons_self _ _)
    subst hok
    rw [workerLoop, ih _ (fun x hx => h x (List.mem_cons_of_mem _ hx))]
    simp [WriteString]

theorem convertLine_eq (line : Line) :
    convertLine line = recordBody line.Time line.Text ++ ['\n'] := by
  unfold convertLine recordBody
  simp only []
  rw [Sprintf_recordFormat, escapeLine_eq]

theorem recordBody_no_newline (t : Time) (text : Str) (h : '\n' ∉ text) :
    '\n' ∉ recordBody t text := by
  unfold recordBody
  have h1 := FormatRFC3339_no_newline t
  have h2 := prefixQuotes_no_newline _ (fun hc => h (TrimRightFunc_mem text IsSpace _ hc))
  simp only [List.mem_append, not_or]
  exact ⟨⟨⟨⟨by decide, h1⟩, by decide⟩, h2⟩, by decide⟩

/-! ## The line converter -/

/-- C1. For every raw line and arrival time the record `Worker` writes is the
text `{"time": "<T>", "stream": "stdout","log":"<E>\n"}` followed by one newline,
where `<T>` is the RFC3339 rendering of the time, `<E>` is `escapeLine` of the
line, which is the line with its trailing whitespace stripped and each double
quote prefixed by a backslash, and `\n` in the log field is backslash then n.
The line `He said "hi"` read at 2024-01-01T00:00:00Z gives the record of the
spec's example. -/
theorem convertLine_record :
    (∀ line : Line, ∃ trimmed ws : Str,
      line.Text = trimmed ++ ws
      ∧ (∀ c ∈ ws, IsSpace c = true)
      ∧ (∀ h : trimmed ≠ [], IsSpace (trimmed.getLast h) = false)
      ∧ escapeLine line.Text = prefixQuotes trimmed
      ∧ convertLine line
          = "\x7b\"time\": \"".toList ++ line.Time.FormatRFC3339
            ++ "\", \"stream\": \"stdout\",\"log\":\"".toList ++ escapeLine line.Text
            ++ ['\\', 'n', '"', '}'] ++ ['\n'])
    ∧ convertLine ⟨"He said \"hi\"".toList, ⟨2024, 1, 1, 0, 0, 0, 0⟩⟩
        = ("\x7b\"time\": \"2024-01-01T00:00:00Z\", \"stream\": \"stdout\","
            ++ "\"log\":\"He said \\\"hi\\\"\\n\"\x7d\n").toList := by
  refine ⟨fun line => ?_, by decide⟩
  obtain ⟨h1, h2, h3⟩ := TrimRightFunc_split line.Text IsSpace
  refine ⟨TrimRightFunc line.Text IsSpace, _, h1, h2, h3, escapeLine_eq _, ?_⟩
  rw [convertLine_eq, recordBody, escapeLine_eq]

/-- C2. Escaping round trip: for every raw line, whatever quotes and backslashes
it holds, replacing every backslash-double-quote of `escapeLine line` by a
double quote gives back the line with its trailing whitespace removed. -/
theorem escapeLine_roundtrip (line : Str) :
    ∃ ws : Str, line = unescapeQuotes (escapeLine line) ++ ws
      ∧ (∀ c ∈ ws, IsSpace c = true)
      ∧ (∀ h : unescapeQuotes (escapeLine line) ≠ [],
          IsSpace ((unescapeQuotes (escapeLine line)).getLast h) = false)
      ∧ unescapeQuotes (escapeLine line) = TrimRightFunc line IsSpace := by
  have he : unescapeQuotes (escapeLine line) = TrimRightFunc line IsSpace := by
    rw [escapeLine_eq, unescape_prefixQuotes]
  obtain ⟨h1, h2, h3⟩ := TrimRightFunc_split line IsSpace
  rw [he]
  exact ⟨_, h1, h2, h3, rfl⟩

/-- C3, at the line made of a backslash and a double quote: `escapeLine` puts one
more backslash in front of the quote, so the quote of the output follows two
backslashes, an even number, and ends the quoted log field of the record early. -/
theorem escapeLine_backslash_quote :
    escapeLine ['\\', '"'] = ['\\', '\\', '"']
    ∧ (escapeLine ['\\', '"']).get? 2 = some '"'
    ∧ trailingBackslashes ((escapeLine ['\\', '"']).take 2) = 2
    ∧ quotesEscaped (escapeLine ['\\', '"']) = false
    ∧ convertLine ⟨['\\', '"'], ⟨2024, 1, 1, 0, 0, 0, 0⟩⟩
        = ("\x7b\"time\": \"2024-01-01T00:00:00Z\", \"stream\": \"stdout\","
            ++ "\"log\":\"\\\\\"\\n\"\x7d\n").toList := by
  decide

/-! ## The worker loop -/

/-- C4. For every sequence of N lines delivered in order to one `Worker`, none
holding a newline and every write succeeding, what the loop appends to its output
file is the concatenation, in arrival order, of the N converted records: the
output gains exactly N newline-terminated records and the k-th is the record of
the k-th line, with stream `stdout` and as log the trimmed, quote-escaped line
followed by backslash n. -/
theorem workerLoop_records (file : Str) (evs : List (Line × Bool))
    (hw : ∀ e ∈ evs, e.2 = true) (hn : ∀ e ∈ evs, '\n' ∉ e.1.Text) :
    ∃ appended : Str,
      workerLoop file evs = file ++ appended
      ∧ appended = (evs.map (fun e => convertLine e.1)).flatten
      ∧ appended = ((records appended).map (fun r => r ++ ['\n'])).flatten
      ∧ (records appended).length = evs.length
      ∧ records appended = evs.map (fun e => recordBody e.1.Time e.1.Text) := by
  have hmap : evs.map (fun e => convertLine e.1)
      = (evs.map (fun e => recordBody e.1.Time e.1.Text)).map (fun b => b ++ ['\n']) := by
    rw [List.map_map]
    exact List.map_congr_left (fun e _ => convertLine_eq e.1)
  have hrec : records ((evs.map (fun e => convertLine e.1)).flatten)
      = evs.map (fun e => recordBody e.1.Time e.1.Text) := by
    rw [hmap]
    apply records_join
    intro b hb
    obtain ⟨e, he, rfl⟩ := List.mem_map.mp hb
    exact recordBody_no_newline _ _ (hn e he)
  refine ⟨_, workerLoop_ok evs file hw, rfl, ?_, ?_, hrec⟩
  · rw [hrec, ← hmap]
  · rw [hrec, List.length_map]

/-- C4 at two lines, the first ending in a carriage return and a tab. -/
theorem workerLoop_records_witness :
    ∃ appended : Str,
      workerLoop "old\n".toList
          [(⟨"first \r\t".toList, ⟨2024, 1, 1, 0, 0, 0, 0⟩⟩, true),
           (⟨"say \"x\"".toList, ⟨2024, 1, 1, 0, 0, 1, 0⟩⟩, true)]
        = "old\n".toList ++ appended
      ∧ (records appended).length = 2
      ∧ records appended
          = [recordBody ⟨2024, 1, 1, 0, 0, 0, 0⟩ "first \r\t".toList,
             recordBody ⟨2024, 1, 1, 0, 0, 1, 0⟩ "say \"x\"".toList] := by
  obtain ⟨appended, h1, _, _, h4, h5⟩ :=
    workerLoop_records "old\n".toList
      [(⟨"first \r\t".toList, ⟨2024, 1, 1, 0, 0, 0, 0⟩⟩, true),
       (⟨"say \"x\"".toList, ⟨2024, 1, 1, 0, 0, 1, 0⟩⟩, true)]
      (by decide) (by decide)
  exact ⟨appended, h1, h4, h5⟩

/-! ## Image names -/

theorem splitAux_single_head (c : Char) (a : Str) : ∀ (cur rest : Str), c ∉ a →
    splitAux [c] 0 cur (a ++ c :: rest) = (cur.reverse ++ a) :: splitAux [c] 0 [] rest := by
  induction a with
  | nil => intro cur rest _; simp [splitAux, List.isPrefixOf]
  | cons x xs ih =>
    intro cur rest h
    simp only [List.mem_cons, not_or] at h
    simp [splitAux, List.isPrefixOf, h.1, ih (x :: cur) rest h.2]

theorem splitAux_single_none (c : Char) (a : Str) : ∀ cur : Str, c ∉ a →
    splitAux [c] 0 cur a = [cur.reverse ++ a] := by
  induction a with
  | nil => intro cur _; simp [splitAux]
  | cons x xs ih =>
    intro cur h
    simp only [List.mem_cons, not_or] at h
    simp [splitAux, List.isPrefixOf, h.1, ih (x :: cur) h.2]

theorem splitAux_single_last (c : Char) (s : Str) : ∀ cur : Str, c ∉ cur →
    ∃ init seg, splitAux [c] 0 cur s = init ++ [seg] ∧ c ∉ seg
      ∧ ((c ∉ s ∧ seg = cur.reverse ++ s ∧ init = []) ∨ ∃ pre, s = pre ++ c :: seg) := by
  induction s with
  | nil =>
    intro cur hcur
    exact ⟨[], cur.reverse, by simp [splitAux], by simpa using hcur, by simp⟩
  | cons x xs ih =>
    intro cur hcur
    by_cases hx : x = c
    · subst hx
      obtain ⟨init, seg, h1, h2, h3⟩ := ih [] (List.not_mem_nil _)
      refine ⟨cur.reverse :: init, seg, by simp [splitAux, List.isPrefixOf, h1], h2, Or.inr ?_⟩
      rcases h3 with ⟨_, h3, _⟩ | ⟨pre, h3⟩
      · exact ⟨[], by simp [h3]⟩
      · exact ⟨x :: pre, by simp [h3]⟩
    · have hx' : ¬ c = x := fun e => hx e.symm
      obtain ⟨init, seg, h1, h2, h3⟩ := ih (x :: cur) (by simp [hx', hcur])
      refine ⟨init, seg, by simp [splitAux, List.isPrefixOf, hx', h1], h2, ?_⟩
      rcases h3 with ⟨h3, h4, h5⟩ | ⟨pre, h3⟩
      · exact Or.inl ⟨by simp [hx', h3], by simp [h4], h5⟩
      · exact Or.inr ⟨x :: pre, by simp [h3]⟩

theorem index_last {α : Type} (init : List α) (seg : α) :
    index (init ++ [seg]) (((init ++ [seg]).length : Int) - 1) = .ok seg := by
  unfold index
  have h : ((init ++ [seg]).length : Int) - 1 = (init.length : Nat) := by simp
  rw [h, if_neg (by omega)]
  simp

/-- On references whose name holds no colon the helpers do what the spec says: the
tag, if any, is what `stripTagFromImageName` removes, and the volume name is the
final `/`-separated segment of the name, for every URL parser that answers the
name as its path. -/
theorem ImageNameToVolumeName_colon_free (Parse : Str → Except Failure URL) (name : Str)
    (hcolon : ':' ∉ name) (hparse : Parse name = .ok { Path := name }) :
    stripTagFromImageName name = .ok name
    ∧ (∀ tag, stripTagFromImageName (name ++ ':' :: tag) = .ok name)
    ∧ ∃ seg, '/' ∉ seg ∧ (name = seg ∨ ∃ pre, name = pre ++ '/' :: seg)
        ∧ ImageNameToVolumeName Parse name = .ok seg
        ∧ ∀ tag, ImageNameToVolumeName Parse (name ++ ':' :: tag) = .ok seg := by
  have h1 : stripTagFromImageName name = .ok name := by
    unfold stripTagFromImageName Split
    rw [if_neg (by decide), splitAux_single_none ':' name [] hcolon]
    rfl
  have h2 : ∀ tag, stripTagFromImageName (name ++ ':' :: tag) = .ok name := by
    intro tag
    unfold stripTagFromImageName Split
    rw [if_neg (by decide), splitAux_single_head ':' name [] tag hcolon]
    rfl
  obtain ⟨init, seg, h3, h4, h5⟩ := splitAux_single_last '/' name [] (List.not_mem_nil _)
  have hrun : ∀ s, stripTagFromImageName s = .ok name →
      ImageNameToVolumeName Parse s = .ok seg := by
    intro s hs
    unfold ImageNameToVolumeName
    rw [hs]
    show (Parse name >>= _) = _
    rw [hparse]
    show (index (Split name ['/']) _ >>= _) = _
    unfold Split
    rw [if_neg (by decide), h3, index_last]
    rfl
  refine ⟨h1, h2, seg, h4, ?_, hrun _ h1, fun tag => hrun _ (h2 tag)⟩
  rcases h5 with ⟨_, h5, _⟩ | ⟨pre, h5⟩
  · exact Or.inl (by simpa using h5.symm)
  · exact Or.inr ⟨pre, h5⟩

/-- C5, at references whose name holds a colon. For `mirror/registry:5000/bar:latest`
the name `mirror/registry:5000/bar` is a reference that URL parsing leaves
unchanged as its path and its final segment is `bar`, yet `stripTagFromImageName`
cuts at the first colon, keeping `mirror/registry`, and the volume name is
`registry`; for `localhost:5000/foo/bar:latest` the volume name is `localhost`. -/
theorem ImageNameToVolumeName_colon :
    ParsePlain "mirror/registry:5000/bar".toList = .ok ⟨"mirror/registry:5000/bar".toList⟩
    ∧ Split "mirror/registry:5000/bar".toList ['/']
        = ["mirror".toList, "registry:5000".toList, "bar".toList]
    ∧ stripTagFromImageName "mirror/registry:5000/bar:latest".toList
        = .ok "mirror/registry".toList
    ∧ ImageNameToVolumeName ParsePlain "mirror/registry:5000/bar:latest".toList
        = .ok "registry".toList
    ∧ stripTagFromImageName "localhost:5000/foo/bar:latest".toList = .ok "localhost".toList
    ∧ ImageNameToVolumeName ParsePlain "localhost:5000/foo/bar:latest".toList
        = .ok "localhost".toList
    ∧ ImageNameToVolumeName ParsePlain "example.com/foo/bar:latest".toList
        = .ok "bar".toList := by
  exact ⟨rfl, rfl, rfl, rfl, rfl, rfl, rfl⟩

/-! ## The registry as a map -/

theorem mapGet_mapSet (m : WorkerMap) (k : String) (c : Chan) (k' : String) :
    mapGet (mapSet m k c) k' = if k = k' then some c else mapGet m k' := by
  induction m with
  | nil => simp [mapSet, mapGet]
  | cons e rest ih =>
    obtain ⟨a, b⟩ := e
    by_cases h : a = k
    · subst h
      by_cases h' : a = k' <;> simp [mapSet, mapGet, h']
    · by_cases h'' : a = k'
      · subst h''
        have hk : ¬ k = a := fun e => h e.symm
        simp [mapSet, mapGet, h, hk]
      · simp [mapSet, mapGet, h, h'', ih]

theorem mapSet_keys (m : WorkerMap) (k : String) (c : Chan) :
    (mapSet m k c).map Prod.fst
      = if k ∈ m.map Prod.fst then m.map Prod.fst else m.map Prod.fst ++ [k] := by
  induction m with
  | nil => simp [mapSet]
  | cons e rest ih =>
    obtain ⟨a, b⟩ := e
    by_cases h : a = k
    · subst h
      simp [mapSet]
    · have hk : ¬ k = a := fun e => h e.symm
      simp only [mapSet, if_neg h, List.map_cons, ih, List.mem_cons, hk, false_or]
      split_ifs <;> simp

theorem mapSet_nodup (m : WorkerMap) (k : String) (c : Chan)
    (h : (m.map Prod.fst).Nodup) : ((mapSet m k c).map Prod.fst).Nodup := by
  rw [mapSet_keys]
  split_ifs with hk
  · exact h
  · exact List.Nodup.append h (List.nodup_singleton k) (by simpa using hk)

theorem mapGet_isSome (m : WorkerMap) (k : String) :
    (mapGet m k).isSome = true ↔ k ∈ m.map Prod.fst := by
  induction m with
  | nil => simp [mapGet]
  | cons e rest ih =>
    obtain ⟨a, b⟩ := e
    by_cases h : a = k
    · simp [mapGet, h]
    · have hk : ¬ k = a := fun e => h e.symm
      simp [mapGet, h, hk, ih]

theorem mapGet_mem (m : WorkerMap) (k : String) (c : Chan) (h : mapGet m k = some c) :
    (k, c) ∈ m := by
  induction m with
  | nil => simp [mapGet] at h
  | cons e rest ih =>
    obtain ⟨a, b⟩ := e
    by_cases hk : a = k
    · simp [mapGet, hk] at h
      simp [hk, h]
    · simp only [mapGet, if_neg hk] at h
      exact List.mem_cons_of_mem _ (ih h)

theorem mapGet_mapDelete (m : WorkerMap) (k k' : String) :
    mapGet (mapDelete m k) k' = if k = k' then none else mapGet m k' := by
  induction m with
  | nil => simp [mapDelete, mapGet]
  | cons e rest ih =>
    obtain ⟨a, b⟩ := e
    by_cases h : a = k
    · subst h
      by_cases h' : a = k'
      · subst h'
        simpa [mapDelete] using ih
      · simp [mapDelete, mapGet, h', ih]
    · by_cases h'' : a = k'
      · subst h''
        have hk : ¬ k = a := fun e => h e.symm
        simp [mapDelete, mapGet, h, hk]
      · simp [mapDelete, mapGet, h, h'', ih]

/-! ## Registration -/

/-- C6, at a registry that already maps `A` to channel 1: a `Worker` started for
`A` with channel 2 registers without any failure and the handle of `A` is then 2,
the earlier handle is overwritten. -/
theorem register_overwrites :
    mapGet (exampleLogger [("A", 1)]).entries "A" = some 1
    ∧ Worker.start ⟨true, true, true, some 2⟩ "A" (exampleLogger [("A", 1)])
        = .registered (exampleLogger [("A", 2)])
    ∧ mapGet (exampleLogger [("A", 2)]).entries "A" = some 2
    ∧ mapGet (exampleLogger [("A", 2)]).entries "A"
        ≠ mapGet (exampleLogger [("A", 1)]).entries "A" := by
  decide

/-- C6, amended. A `Worker` whose start-up fails, the output file neither found nor
created, or not opened, or the input not tailed, returns early and registers
nothing. Otherwise, on a registry map that has been made, it stores its channel
under its InstanceID whether or not the id is already present: there is no
failure for a present id, the handle read under the id afterwards is the new
one, every other id reads as before, and a registry with one entry per id keeps
one entry per id. On the nil map of a logger on which `SpawnWorkers` never ran
the assignment panics. -/
theorem register_spec (env : StartEnv) (sandboxId : String) (v : virtletLogger) :
    ((env.outputExists = false ∧ env.createOk = false) ∨ env.openOk = false ∨ env.tail = none →
        Worker.start env sandboxId v = .returnedEarly)
    ∧ (∀ (lines : Chan) (m : WorkerMap),
        env.outputExists = true ∨ env.createOk = true → env.openOk = true →
        env.tail = some lines → v.workers = some m →
        ∃ v', Worker.start env sandboxId v = .registered v'
          ∧ v'.Config = v.Config
          ∧ v'.workers = some (mapSet m sandboxId lines)
          ∧ mapGet v'.entries sandboxId = some lines
          ∧ (∀ k, k ≠ sandboxId → mapGet v'.entries k = mapGet v.entries k)
          ∧ ((v.entries.map Prod.fst).Nodup → (v'.entries.map Prod.fst).Nodup))
    ∧ (∀ lines : Chan,
        env.outputExists = true ∨ env.createOk = true → env.openOk = true →
        env.tail = some lines → v.workers = none →
        Worker.start env sandboxId v = .panicked "assignment to entry in nil map") := by
  refine ⟨?_, ?_, ?_⟩
  · intro h
    unfold Worker.start
    rcases h with ⟨h1, h2⟩ | h | h
    · simp [h1, h2]
    · simp [h]
    · simp [h]
  · intro lines m h1 h2 h3 h4
    have hs : Worker.start env sandboxId v
        = .registered { v with workers := some (mapSet m sandboxId lines) } := by
      unfold Worker.start Worker.register
      rw [h3, h4]
      rcases h1 with h1 | h1 <;> simp [h1, h2]
    have he : v.entries = m := by simp [virtletLogger.entries, h4]
    refine ⟨_, hs, rfl, rfl, ?_, ?_, ?_⟩
    · simp [virtletLogger.entries, mapGet_mapSet]
    · intro k hk
      have : ¬ sandboxId = k := fun e => hk e.symm
      simp [virtletLogger.entries, mapGet_mapSet, this, h4]
    · intro hn
      rw [he] at hn
      exact mapSet_nodup _ _ _ hn
  · intro lines h1 h2 h3 h4
    unfold Worker.start Worker.register
    rw [h3, h4]
    rcases h1 with h1 | h1 <;> simp [h1, h2]

/-- C6, amended, at the registry holding `A` and `B`: registering `A` again
replaces the handle of `A` and keeps that of `B`; a `Worker` that cannot open its
output file registers nothing. -/
theorem register_spec_witness :
    (∃ v', Worker.start ⟨false, true, true, some 7⟩ "A" (exampleLogger [("A", 1), ("B", 2)])
        = .registered v'
      ∧ mapGet v'.entries "A" = some 7
      ∧ mapGet v'.entries "B" = some 2)
    ∧ Worker.start ⟨true, true, false, some 7⟩ "A" (exampleLogger [("A", 1), ("B", 2)])
        = .returnedEarly := by
  have h := register_spec ⟨false, true, true, some 7⟩ "A" (exampleLogger [("A", 1), ("B", 2)])
  obtain ⟨v', h1, _, _, h4, h5, _⟩ := h.2.1 7 [("A", 1), ("B", 2)] (Or.inr rfl) rfl rfl rfl
  refine ⟨⟨v', h1, h4, ?_⟩, ?_⟩
  · rw [h5 "B" (by decide)]
    decide
  · exact (register_spec ⟨true, true, false, some 7⟩ "A"
      (exampleLogger [("A", 1), ("B", 2)])).1 (Or.inr (Or.inl rfl))

/-! ## Discovery -/

theorem Dir_Join (folder : Path) (a b : String) : Dir (Join folder [a, b]) = Join folder [a] := by
  unfold Dir Join
  rw [show folder ++ [a, b] = (folder ++ [a]) ++ [b] by simp]
  exact List.dropLast_concat

theorem spawnOne_some (fs : FS) (v : virtletLogger) (e : FileInfo) (c : WorkerCall) :
    spawnOne fs v e = some c
      ↔ (eligible fs v e ∧ mapGet v.entries e.Name = none) ∧ c = workerCall v e.Name := by
  unfold spawnOne eligible workerCall
  simp only [Dir_Join]
  cases hg : mapGet v.entries e.Name with
  | some ch => simp
  | none =>
    cases hd : e.IsDir <;>
    cases hi : IsNotExist
      (fs.Stat (Join v.Config.VirtletFolder [e.Name, v.Config.VirtletFilename])) <;>
    cases ho : IsNotExist (fs.Stat (Join v.Config.KubernetesFolder [e.Name])) <;>
    simp [eq_comm]

theorem spawnOne_none (fs : FS) (v : virtletLogger) (e : FileInfo) :
    spawnOne fs v e = none ↔ ¬ (eligible fs v e ∧ mapGet v.entries e.Name = none) := by
  constructor
  · intro h hr
    have := (spawnOne_some fs v e (workerCall v e.Name)).mpr ⟨hr, rfl⟩
    rw [h] at this
    exact Option.noConfusion this
  · intro h
    cases hs : spawnOne fs v e with
    | none => rfl
    | some c => exact absurd ((spawnOne_some fs v e c).mp hs).1 h

theorem makeWorkers_Config (v : virtletLogger) : (makeWorkers v).Config = v.Config := by
  unfold makeWorkers
  cases v.workers <;> rfl

theorem makeWorkers_entries (v : virtletLogger) : (makeWorkers v).entries = v.entries := by
  unfold makeWorkers virtletLogger.entries
  cases h : v.workers <;> simp [h]

theorem makeWorkers_made (v : virtletLogger) : (makeWorkers v).workers = some v.entries := by
  unfold makeWorkers virtletLogger.entries
  cases h : v.workers <;> simp [h]

theorem makeWorkers_of_made (v : virtletLogger) (m : WorkerMap) (h : v.workers = some m) :
    makeWorkers v = v := by
  unfold makeWorkers
  rw [h]

theorem spawnOne_congr (fs : FS) (v v' : virtletLogger) (hc : v'.Config = v.Config)
    (he : v'.entries = v.entries) (e : FileInfo) : spawnOne fs v' e = spawnOne fs v e := by
  unfold spawnOne
  rw [hc, he]

theorem eligible_congr (fs : FS) (v v' : virtletLogger) (hc : v'.Config = v.Config)
    (e : FileInfo) : eligible fs v' e ↔ eligible fs v e := by
  unfold eligible
  rw [hc]

theorem setAll_keys (regs : List (String × Chan)) : ∀ (m : WorkerMap) (k : String),
    k ∈ (regs.foldl (fun m r => mapSet m r.1 r.2) m).map Prod.fst
      ↔ k ∈ m.map Prod.fst ∨ k ∈ regs.map Prod.fst := by
  induction regs with
  | nil => intro m k; simp
  | cons r rs ih =>
    intro m k
    rw [List.foldl_cons, ih]
    simp only [mapSet_keys, List.map_cons, List.mem_cons]
    split_ifs with h
    · constructor
      · rintro (h1 | h1)
        · exact Or.inl h1
        · exact Or.inr (Or.inr h1)
      · rintro (h1 | h1 | h1)
        · exact Or.inl h1
        · exact Or.inl (h1 ▸ h)
        · exact Or.inr h1
    · simp only [List.mem_append, List.mem_singleton]
      tauto

theorem setAll_nodup (regs : List (String × Chan)) : ∀ m : WorkerMap,
    (m.map Prod.fst).Nodup →
    ((regs.foldl (fun m r => mapSet m r.1 r.2) m).map Prod.fst).Nodup := by
  induction regs with
  | nil => intro m h; exact h
  | cons r rs ih =>
    intro m h
    rw [List.foldl_cons]
    exact ih _ (mapSet_nodup _ _ _ h)

theorem registerAll_made (regs : List (String × Chan)) : ∀ (v : virtletLogger) (m : WorkerMap),
    v.workers = some m →
    registerAll regs v
      = .registered { v with workers := some (regs.foldl (fun m r => mapSet m r.1 r.2) m) } := by
  induction regs with
  | nil =>
    intro v m h
    simp only [registerAll, List.foldl_nil]
    rw [← h]
  | cons r rs ih =>
    intro v m h
    simp only [registerAll, Worker.register, h, List.foldl_cons]
    exact ih _ _ rfl

theorem started_ids_sublist (fs : FS) (v : virtletLogger) (vmFolders : List FileInfo) :
    ((vmFolders.filterMap (spawnOne fs v)).map WorkerCall.sandboxId).Sublist
      (vmFolders.map FileInfo.Name) := by
  induction vmFolders with
  | nil => simp
  | cons e es ih =>
    cases hs : spawnOne fs v e with
    | none =>
      rw [List.filterMap_cons_none hs]
      exact List.Sublist.cons _ ih
    | some c =>
      rw [List.filterMap_cons_some hs]
      have hc : c.sandboxId = e.Name := by
        rw [((spawnOne_some fs v e c).mp hs).2]
        rfl
      simp only [List.map_cons, hc]
      exact List.Sublist.cons₂ _ ih

/-- C7, as stated, at two file systems. Where the output root `kubernetes` is a
regular file, no output directory of `A` exists and `os.Stat` of it fails with
`ENOTDIR`, which is not a not-exist error, so `SpawnWorkers` starts a `Worker`
for `A`; and where the output path of `A` is a regular file `os.Stat` succeeds
and the `Worker` is started too, although that path is no directory. -/
theorem SpawnWorkers_stat_error :
    fileRootTree.node ["kubernetes", "A"] = none
    ∧ (FS.ofTree fileRootTree).Stat ["kubernetes", "A"] = .failed "not a directory"
    ∧ SpawnWorkers (FS.ofTree fileRootTree) (exampleLogger [])
        = (exampleLogger [], .ok [workerCall (exampleLogger []) "A"])
    ∧ fileOutputTree.node ["kubernetes", "A"] = some .file
    ∧ (FS.ofTree fileOutputTree).Stat ["kubernetes", "A"] = .info false
    ∧ SpawnWorkers (FS.ofTree fileOutputTree) (exampleLogger [])
        = (exampleLogger [], .ok [workerCall (exampleLogger []) "A"]) := by
  exact ⟨rfl, rfl, rfl, rfl, rfl, rfl⟩

/-- C7, amended. `SpawnWorkers` is idempotent. For every listing of the raw-input
root and every registry, the nil map included, it makes the map and starts a
`Worker` for exactly the entries that are directories, have no registry entry, and
for which `os.Stat` reports neither the raw input file nor the structured-output
directory as not existing, one `Worker` per such InstanceID and none for any
other entry; and once each started `Worker` has registered itself, in whatever
order and with whatever channel, `SpawnWorkers` on the unchanged file system
starts no `Worker`, the registry holding exactly one entry per such instance. -/
theorem SpawnWorkers_idempotent (fs : FS) (v : virtletLogger) (vmFolders : List FileInfo)
    (hls : fs.ReadDir v.Config.VirtletFolder = .ok vmFolders)
    (hnd : (vmFolders.map FileInfo.Name).Nodup)
    (hmap : (v.entries.map Prod.fst).Nodup) :
    ∃ started : List WorkerCall,
      SpawnWorkers fs v = (makeWorkers v, .ok started)
      ∧ (makeWorkers v).workers = some v.entries
      ∧ (∀ c, c ∈ started ↔
          ∃ e ∈ vmFolders, (eligible fs v e ∧ mapGet v.entries e.Name = none)
            ∧ c = workerCall v e.Name)
      ∧ (started.map WorkerCall.sandboxId).Nodup
      ∧ ∀ regs : List (String × Chan),
          (regs.map Prod.fst).Perm (started.map WorkerCall.sandboxId) →
          ∃ v', registerAll regs (makeWorkers v) = .registered v'
            ∧ SpawnWorkers fs v' = (v', .ok [])
            ∧ ∀ e ∈ vmFolders, eligible fs v e →
                (v'.entries.map Prod.fst).count e.Name = 1 := by
  have hrun : ∀ v' : virtletLogger, v'.Config = v.Config →
      SpawnWorkers fs v' = (makeWorkers v', .ok (vmFolders.filterMap (spawnOne fs v'))) := by
    intro v' hc
    unfold SpawnWorkers
    simp only [makeWorkers_Config, hc, hls]
    congr 2
    exact List.filterMap_congr
      (fun e _ => spawnOne_congr fs v' (makeWorkers v') (makeWorkers_Config v')
        (makeWorkers_entries v') e)
  have hmem : ∀ c, c ∈ vmFolders.filterMap (spawnOne fs v) ↔
      ∃ e ∈ vmFolders, (eligible fs v e ∧ mapGet v.entries e.Name = none)
        ∧ c = workerCall v e.Name := by
    intro c
    rw [List.mem_filterMap]
    exact exists_congr fun e => and_congr_right fun _ => spawnOne_some fs v e c
  refine ⟨_, hrun v rfl, makeWorkers_made v, hmem,
    (started_ids_sublist fs v vmFolders).nodup hnd, ?_⟩
  intro regs hperm
  have hreg := registerAll_made regs (makeWorkers v) v.entries (makeWorkers_made v)
  refine ⟨_, hreg, ?_, ?_⟩
  · have hcfg : ({ makeWorkers v with
        workers := some (regs.foldl (fun m r => mapSet m r.1 r.2) v.entries) }
          : virtletLogger).Config = v.Config := makeWorkers_Config v
    rw [hrun _ hcfg, makeWorkers_of_made _ _ rfl]
    congr 2
    rw [List.filterMap_eq_nil_iff]
    intro e he
    rw [spawnOne_none]
    rintro ⟨hr, hg⟩
    have hr' : eligible fs v e := (eligible_congr fs v _ hcfg e).mp hr
    have hkey : e.Name ∈ (regs.foldl (fun m r => mapSet m r.1 r.2) v.entries).map Prod.fst := by
      rw [setAll_keys]
      cases hg0 : mapGet v.entries e.Name with
      | some ch => exact Or.inl ((mapGet_isSome _ _).mp (by rw [hg0]; rfl))
      | none =>
        refine Or.inr (hperm.symm.subset ?_)
        exact List.mem_map.mpr ⟨workerCall v e.Name, (hmem _).mpr ⟨e, he, ⟨hr', hg0⟩, rfl⟩, rfl⟩
    have hg' : mapGet (regs.foldl (fun m r => mapSet m r.1 r.2) v.entries) e.Name = none := hg
    have := (mapGet_isSome _ _).mpr hkey
    rw [hg'] at this
    exact Bool.noConfusion this
  · intro e he hr
    have hkey : e.Name ∈ (regs.foldl (fun m r => mapSet m r.1 r.2) v.entries).map Prod.fst := by
      rw [setAll_keys]
      cases hg0 : mapGet v.entries e.Name with
      | some ch => exact Or.inl ((mapGet_isSome _ _).mp (by rw [hg0]; rfl))
      | none =>
        refine Or.inr (hperm.symm.subset ?_)
        exact List.mem_map.mpr ⟨workerCall v e.Name, (hmem _).mpr ⟨e, he, ⟨hr, hg0⟩, rfl⟩, rfl⟩
    exact List.count_eq_one_of_mem (setAll_nodup regs _ hmap) hkey

/-- C7, amended, at the example file system and a fresh logger, whose map is nil:
the first call makes the map and starts the `Worker` of `A` alone, `B` having no
output directory and `notes.txt` being no directory; once that `Worker` has
registered, a second call starts nothing. -/
theorem SpawnWorkers_idempotent_witness :
    SpawnWorkers exampleFS (NewVirtletLogger ["virtlet"] ["kubernetes"])
        = (exampleLogger [], .ok [workerCall (exampleLogger []) "A"])
    ∧ registerAll [("A", 1)] (exampleLogger []) = .registered (exampleLogger [("A", 1)])
    ∧ SpawnWorkers exampleFS (exampleLogger [("A", 1)]) = (exampleLogger [("A", 1)], .ok [])
    ∧ ∃ started : List WorkerCall,
        SpawnWorkers exampleFS (NewVirtletLogger ["virtlet"] ["kubernetes"])
          = (exampleLogger [], .ok started)
        ∧ (started.map WorkerCall.sandboxId).Nodup
        ∧ ∀ regs : List (String × Chan),
            (regs.map Prod.fst).Perm (started.map WorkerCall.sandboxId) →
            ∃ v', registerAll regs (exampleLogger []) = .registered v'
              ∧ SpawnWorkers exampleFS v' = (v', .ok []) := by
  refine ⟨rfl, rfl, rfl, ?_⟩
  obtain ⟨started, h1, _, _, h4, h5⟩ :=
    SpawnWorkers_idempotent exampleFS (NewVirtletLogger ["virtlet"] ["kubernetes"])
      [⟨"A", true⟩, ⟨"B", true⟩, ⟨"notes.txt", false⟩] rfl (by decide) (by decide)
  refine ⟨started, h1, h4, fun regs hp => ?_⟩
  obtain ⟨v', h6, h7, _⟩ := h5 regs hp
  exact ⟨v', h6, h7⟩

/-! ## Stopping -/

theorem stopWorker_ok (sandboxId : String) (w w' : World) (h : stopWorker sandboxId w = .ok w') :
    w'.v = w.v ∧ (∀ ch ∈ w.closed, ch ∈ w'.closed)
      ∧ ∀ ch, mapGet w.v.entries sandboxId = some ch → ch ∈ w'.closed := by
  unfold stopWorker at h
  cases hg : mapGet w.v.entries sandboxId with
  | none =>
    rw [hg] at h
    cases h
    exact ⟨rfl, fun _ hc => hc, fun _ hc => Option.noConfusion hc⟩
  | some c =>
    rw [hg] at h
    simp only [closeChan] at h
    split_ifs at h
    cases h
    refine ⟨rfl, fun _ hc => List.mem_cons_of_mem _ hc, ?_⟩
    intro ch hch
    cases hch
    exact List.mem_cons_self _ _

theorem stopAllLoop_ok (ids : List String) : ∀ (w w' : World), stopAllLoop ids w = .ok w' →
    w'.v = w.v ∧ (∀ ch ∈ w.closed, ch ∈ w'.closed)
      ∧ ∀ id ∈ ids, ∀ ch, mapGet w.v.entries id = some ch → ch ∈ w'.closed := by
  induction ids with
  | nil =>
    intro w w' h
    cases h
    exact ⟨rfl, fun _ hc => hc, fun _ hid => absurd hid (List.not_mem_nil _)⟩
  | cons id rest ih =>
    intro w w' h
    unfold stopAllLoop at h
    cases hs : stopWorker id w with
    | error e => rw [hs] at h; cases h
    | ok w1 =>
      rw [hs] at h
      obtain ⟨hv1, hc1, hg1⟩ := stopWorker_ok id w w1 hs
      obtain ⟨hv2, hc2, hg2⟩ := ih w1 w' h
      refine ⟨hv2.trans hv1, fun ch hc => hc2 ch (hc1 ch hc), ?_⟩
      intro k hk ch hch
      rcases List.mem_cons.mp hk with rfl | hk
      · exact hc2 ch (hg1 ch hch)
      · exact hg2 k hk ch (by rw [hv1]; exact hch)

theorem Event.apply_closed (w w' : World) (e : Event) (h : Event.apply w e = .ok w') :
    w'.closed = w.closed := by
  cases e with
  | exit id =>
    simp only [Event.apply] at h
    cases hg : mapGet w.v.entries id with
    | none => rw [hg] at h; cases h; rfl
    | some ch =>
      rw [hg] at h
      simp only [] at h
      split_ifs at h <;> cases h <;> rfl
  | register id ch =>
    simp only [Event.apply] at h
    cases hr : Worker.register id ch w.v with
    | returnedEarly => rw [hr] at h; cases h; rfl
    | panicked msg => rw [hr] at h; cases h
    | registered v' => rw [hr] at h; cases h; rfl

theorem applyAll_closed (evs : List Event) : ∀ w w' : World, applyAll evs w = .ok w' →
    w'.closed = w.closed := by
  induction evs with
  | nil => intro w w' h; cases h; rfl
  | cons e es ih =>
    intro w w' h
    unfold applyAll at h
    cases he : Event.apply w e with
    | error err => rw [he] at h; cases h
    | ok w1 =>
      rw [he] at h
      exact (ih w1 w' h).trans (Event.apply_closed w w1 e he)

theorem pollLoop_returned (sched : List (List Event)) : ∀ (w w' : World),
    pollLoop sched w = .returned w' → w'.v.entries = [] ∧ w'.closed = w.closed := by
  induction sched with
  | nil =>
    intro w w' h
    unfold pollLoop at h
    split_ifs at h with h0
    cases h
    exact ⟨List.length_eq_zero.mp h0, rfl⟩
  | cons evs rest ih =>
    intro w w' h
    unfold pollLoop at h
    split_ifs at h with h0
    · cases h
      exact ⟨List.length_eq_zero.mp h0, rfl⟩
    · cases ha : applyAll evs w with
      | error err => rw [ha] at h; cases h
      | ok w1 =>
        rw [ha] at h
        obtain ⟨h1, h2⟩ := ih w1 w' h
        exact ⟨h1, h2.trans (applyAll_closed evs w w1 ha)⟩

theorem pollLoop_empty (sched : List (List Event)) (w : World) (h : w.v.entries = []) :
    pollLoop sched w = .returned w := by
  cases sched <;> simp [pollLoop, h]

theorem mapGet_of_mem (m : WorkerMap) (h : (m.map Prod.fst).Nodup) (p : String × Chan)
    (hp : p ∈ m) : mapGet m p.1 = some p.2 := by
  induction m with
  | nil => exact absurd hp (List.not_mem_nil _)
  | cons e rest ih =>
    obtain ⟨a, b⟩ := e
    rw [List.map_cons, List.nodup_cons] at h
    rcases List.mem_cons.mp hp with rfl | hp'
    · simp [mapGet]
    · have hne : a ≠ p.1 := by
        intro e
        apply h.1
        rw [e]
        exact List.mem_map.mpr ⟨p, hp', rfl⟩
      simp only [mapGet, if_neg hne]
      exact ih h.2 hp'

theorem mem_mapDelete (m : WorkerMap) (k : String) (p : String × Chan) :
    p ∈ mapDelete m k ↔ p ∈ m ∧ p.1 ≠ k := by
  induction m with
  | nil => simp [mapDelete]
  | cons e rest ih =>
    obtain ⟨a, b⟩ := e
    by_cases h : a = k
    · subst h
      simp only [mapDelete, if_true, ih, List.mem_cons]
      constructor
      · rintro ⟨h1, h2⟩
        exact ⟨Or.inr h1, h2⟩
      · rintro ⟨h1 | h1, h2⟩
        · exact absurd (by rw [h1]) h2
        · exact ⟨h1, h2⟩
    · simp only [mapDelete, if_neg h, List.mem_cons, ih]
      constructor
      · rintro (h1 | ⟨h1, h2⟩)
        · exact ⟨Or.inl h1, by rw [h1]; exact h⟩
        · exact ⟨Or.inr h1, h2⟩
      · rintro ⟨h1 | h1, h2⟩
        · exact Or.inl h1
        · exact Or.inr ⟨h1, h2⟩

theorem finish_entries (sandboxId : String) (v : virtletLogger) :
    (Worker.finish sandboxId v).entries = mapDelete v.entries sandboxId := by
  unfold Worker.finish virtletLogger.entries
  cases h : v.workers <;> simp [h, mapDelete]

theorem stopAllLoop_fresh (l : WorkerMap) : ∀ w : World,
    (∀ p ∈ l, mapGet w.v.entries p.1 = some p.2) → (l.map Prod.snd).Nodup →
    (∀ ch ∈ l.map Prod.snd, ch ∉ w.closed) →
    stopAllLoop (l.map Prod.fst) w
      = .ok { w with closed := (l.map Prod.snd).reverse ++ w.closed } := by
  induction l with
  | nil => intro w _ _ _; rfl
  | cons e rest ih =>
    intro w hget hnd hopen
    obtain ⟨k, c⟩ := e
    rw [List.map_cons, List.nodup_cons] at hnd
    have hk : mapGet w.v.entries k = some c := hget (k, c) (List.mem_cons_self _ _)
    have hc : c ∉ w.closed := hopen c (by simp)
    have hs : stopWorker k w = .ok { w with closed := c :: w.closed } := by
      simp [stopWorker, hk, closeChan, hc]
    simp only [List.map_cons, stopAllLoop, hs]
    rw [ih { w with closed := c :: w.closed }
      (fun p hp => hget p (List.mem_cons_of_mem _ hp)) hnd.2]
    · simp
    · intro ch hch hmem
      rcases List.mem_cons.mp hmem with rfl | hmem
      · exact hnd.1 hch
      · exact hopen ch (by simp only [List.map_cons]; exact List.mem_cons_of_mem _ hch) hmem

theorem exits_all (ids : List String) : ∀ w : World,
    (∀ p ∈ w.v.entries, p.2 ∈ w.closed) →
    ∃ w', applyAll (ids.map Event.exit) w = .ok w'
      ∧ ∀ p, p ∈ w'.v.entries ↔ p ∈ w.v.entries ∧ p.1 ∉ ids := by
  induction ids with
  | nil => intro w _; exact ⟨w, rfl, fun p => by simp⟩
  | cons id rest ih =>
    intro w hcl
    have hstep : ∃ w1, Event.apply w (.exit id) = .ok w1 ∧ w1.closed = w.closed
        ∧ ∀ q, q ∈ w1.v.entries ↔ q ∈ w.v.entries ∧ q.1 ≠ id := by
      simp only [Event.apply]
      cases hg : mapGet w.v.entries id with
      | none =>
        refine ⟨w, rfl, rfl, fun q => ⟨fun hq => ⟨hq, ?_⟩, fun hq => hq.1⟩⟩
        intro e
        have := (mapGet_isSome w.v.entries id).mpr (e ▸ List.mem_map_of_mem Prod.fst hq)
        rw [hg] at this
        exact Bool.noConfusion this
      | some ch =>
        have hch : ch ∈ w.closed := hcl (id, ch) (mapGet_mem _ _ _ hg)
        simp only [if_pos hch]
        refine ⟨_, rfl, rfl, fun q => ?_⟩
        simp only [finish_entries]
        exact mem_mapDelete _ _ _
    obtain ⟨w1, h1, h2, h3⟩ := hstep
    obtain ⟨w', h4, h5⟩ := ih w1 (fun q hq => by rw [h2]; exact hcl q ((h3 q).mp hq).1)
    refine ⟨w', ?_, fun p => ?_⟩
    · simp only [List.map_cons, applyAll, h1]
      exact h4
    · rw [h5, h3]
      simp only [List.mem_cons, not_or]
      tauto

theorem pollLoop_idle (n : Nat) (rest : List (List Event)) (w : World) :
    pollLoop (List.replicate n [] ++ rest) w = pollLoop rest w := by
  induction n with
  | zero => simp
  | succ k ih =>
    rw [List.replicate_succ, List.cons_append, pollLoop]
    split_ifs with h0
    · exact (pollLoop_empty rest w (List.length_eq_zero.mp h0)).symm
    · simpa [applyAll] using ih

theorem StopAllWorkers_fresh (w : World) (h : fresh w) (delay : Nat) :
    (w.v.entries ≠ [] →
        StopAllWorkers (List.replicate delay []) w
          = .polling { w with closed := (w.v.entries.map Prod.snd).reverse ++ w.closed })
    ∧ ∃ w', StopAllWorkers
        (List.replicate delay [] ++ [w.v.entries.map (fun p => Event.exit p.1)]) w
          = .returned w' := by
  obtain ⟨hk, hc, ho⟩ := h
  have hs := stopAllLoop_fresh w.v.entries w (fun p hp => mapGet_of_mem _ hk p hp) hc ho
  constructor
  · intro hne
    unfold StopAllWorkers
    rw [hs]
    simp only []
    have := pollLoop_idle delay []
      { w with closed := (w.v.entries.map Prod.snd).reverse ++ w.closed }
    rw [List.append_nil] at this
    rw [this, pollLoop]
    rw [if_neg]
    simpa using hne
  · unfold StopAllWorkers
    rw [hs]
    simp only []
    rw [pollLoop_idle, pollLoop]
    split_ifs with h0
    · exact ⟨_, rfl⟩
    · have hmap : w.v.entries.map (fun p => Event.exit p.1)
          = (w.v.entries.map Prod.fst).map Event.exit := by
        rw [List.map_map]; rfl
      obtain ⟨w', h1, h2⟩ := exits_all (w.v.entries.map Prod.fst)
        { w with closed := (w.v.entries.map Prod.snd).reverse ++ w.closed }
        (fun q hq => List.mem_append_left _
          (List.mem_reverse.mpr (List.mem_map_of_mem Prod.snd hq)))
      rw [hmap, h1]
      refine ⟨w', pollLoop_empty [] _ ?_⟩
      rw [List.eq_nil_iff_forall_not_mem]
      intro p hp
      rw [h2] at hp
      exact hp.2 (List.mem_map_of_mem Prod.fst hp.1)

/-- Where `StopAllWorkers` does what the spec says. For every schedule of the workers
and every world: a run that returns ends with registry size zero, every channel
registered at the time of the call having been closed; on an empty registry it
returns at once in the same world, nothing closed; and when no registered worker
has been signalled before, it closes every registered channel, stays in its
polling loop for as long as no worker deregisters, and returns once they all
have. -/
theorem StopAllWorkers_returned (sched : List (List Event)) (w : World) :
    (∀ w', StopAllWorkers sched w = .returned w' →
        w'.v.entries.length = 0
        ∧ ∀ id ch, mapGet w.v.entries id = some ch → ch ∈ w'.closed)
    ∧ (w.v.entries = [] → StopAllWorkers sched w = .returned w)
    ∧ (fresh w → ∀ delay : Nat,
        (w.v.entries ≠ [] →
          ∃ w1, StopAllWorkers (List.replicate delay []) w = .polling w1
            ∧ w1.v.entries = w.v.entries
            ∧ ∀ id ch, mapGet w.v.entries id = some ch → ch ∈ w1.closed)
        ∧ ∃ w', StopAllWorkers
            (List.replicate delay [] ++ [w.v.entries.map (fun p => Event.exit p.1)]) w
              = .returned w') := by
  refine ⟨?_, ?_, ?_⟩
  · intro w' h
    unfold StopAllWorkers at h
    cases hs : stopAllLoop (w.v.entries.map Prod.fst) w with
    | error e => rw [hs] at h; cases h
    | ok w1 =>
      rw [hs] at h
      obtain ⟨_, _, hg⟩ := stopAllLoop_ok _ w w1 hs
      obtain ⟨he, hc⟩ := pollLoop_returned sched w1 w' h
      refine ⟨by rw [he]; rfl, fun id ch hch => ?_⟩
      rw [hc]
      exact hg id ((mapGet_isSome _ _).mp (by rw [hch]; rfl)) ch hch
  · intro h
    unfold StopAllWorkers
    rw [h]
    exact pollLoop_empty sched w h
  · intro hf delay
    obtain ⟨h1, h2⟩ := StopAllWorkers_fresh w hf delay
    refine ⟨fun hne => ⟨_, h1 hne, rfl, fun id ch hch => ?_⟩, h2⟩
    exact List.mem_append_left _ (List.mem_reverse.mpr
      (List.mem_map.mpr ⟨(id, ch), mapGet_mem _ _ _ hch, rfl⟩))

/-- With `A` and `B` registered and neither signalled before: after a sleep in which
only `A` deregisters the call is still polling, `B` being registered; it returns
after the sleep in which `B` deregisters, the registry empty and both channels
closed. -/
theorem StopAllWorkers_two_workers :
    StopAllWorkers [[.exit "A"]] ⟨exampleLogger [("A", 1), ("B", 2)], []⟩
        = .polling ⟨exampleLogger [("B", 2)], [2, 1]⟩
    ∧ StopAllWorkers [[.exit "A"], [.exit "B"]] ⟨exampleLogger [("A", 1), ("B", 2)], []⟩
        = .returned ⟨exampleLogger [], [2, 1]⟩ := by
  decide

/-! ## Stopping, when no obsolete worker has been signalled before -/

theorem stopObsoleteLoop_unsignalled (fs : FS) (l : WorkerMap) : ∀ w : World,
    (∀ p ∈ l, mapGet w.v.entries p.1 = some p.2) → (l.map Prod.snd).Nodup →
    (∀ p ∈ l, IsNotExist (fs.Stat (Join w.v.Config.KubernetesFolder [p.1])) = true →
      p.2 ∉ w.closed) →
    stopObsoleteLoop fs (l.map Prod.fst) w
      = .ok { w with closed :=
          ((l.filter (fun p =>
            IsNotExist (fs.Stat (Join w.v.Config.KubernetesFolder [p.1])))).map
              Prod.snd).reverse ++ w.closed } := by
  induction l with
  | nil => intro w _ _ _; rfl
  | cons e rest ih =>
    intro w hget hnd hopen
    obtain ⟨k, c⟩ := e
    rw [List.map_cons, List.nodup_cons] at hnd
    have hk : mapGet w.v.entries k = some c := hget (k, c) (List.mem_cons_self _ _)
    cases hex : IsNotExist (fs.Stat (Join w.v.Config.KubernetesFolder [k])) with
    | false =>
      simp only [List.map_cons, stopObsoleteLoop, hex, Bool.false_eq_true, if_false]
      rw [ih w (fun p hp => hget p (List.mem_cons_of_mem _ hp)) hnd.2
        (fun p hp => hopen p (List.mem_cons_of_mem _ hp))]
      simp [List.filter, hex]
    | true =>
      have hc : c ∉ w.closed := hopen (k, c) (List.mem_cons_self _ _) hex
      have hs : stopWorker k w = .ok { w with closed := c :: w.closed } := by
        simp [stopWorker, hk, closeChan, hc]
      simp only [List.map_cons, stopObsoleteLoop, hex, if_true, hs]
      rw [ih { w with closed := c :: w.closed }
        (fun p hp => hget p (List.mem_cons_of_mem _ hp)) hnd.2]
      · simp [List.filter, hex]
      · intro p hp hpe hmem
        rcases List.mem_cons.mp hmem with h | hmem
        · exact hnd.1 (List.mem_map.mpr ⟨p, hp, h⟩)
        · exact hopen p (List.mem_cons_of_mem _ hp) hpe hmem

/-- On a registry with one entry per id and distinct channels in which no worker
whose output directory `os.Stat` reports as not existing has been signalled
before, `StopObsoleteWorkers` completes, closes exactly the channels of those
workers, and leaves the registry as it was. -/
theorem StopObsoleteWorkers_unsignalled (fs : FS) (w : World)
    (hk : (w.v.entries.map Prod.fst).Nodup) (hc : (w.v.entries.map Prod.snd).Nodup)
    (ho : ∀ id ch, mapGet w.v.entries id = some ch →
      IsNotExist (fs.Stat (Join w.v.Config.KubernetesFolder [id])) = true → ch ∉ w.closed) :
    ∃ w', StopObsoleteWorkers fs w = .ok w' ∧ w'.v = w.v
      ∧ ∀ ch, ch ∈ w'.closed ↔
          ch ∈ w.closed ∨ ∃ id, mapGet w.v.entries id = some ch
            ∧ IsNotExist (fs.Stat (Join w.v.Config.KubernetesFolder [id])) = true := by
  have hs := stopObsoleteLoop_unsignalled fs w.v.entries w
    (fun p hp => mapGet_of_mem _ hk p hp) hc
    (fun p hp he => ho p.1 p.2 (mapGet_of_mem _ hk p hp) he)
  refine ⟨_, hs, rfl, fun ch => ?_⟩
  simp only [List.mem_append, List.mem_reverse, List.mem_map, List.mem_filter,
    Prod.exists, exists_and_right, exists_eq_right]
  constructor
  · rintro (⟨id, hmem, hex⟩ | h)
    · exact Or.inr ⟨id, mapGet_of_mem _ hk (id, ch) hmem, hex⟩
    · exact Or.inl h
  · rintro (h | ⟨id, hg, hex⟩)
    · exact Or.inr h
    · exact Or.inl ⟨id, mapGet_mem _ _ _ hg, hex⟩

/-- C8, at a registry in which `B` was signalled by an earlier call and has not
deregistered yet: the first call, with only the output directory of `B` gone,
closes the channel of `B` and keeps both entries; the next call, with the output
directory of `A` gone as well, closes the channel of `B` again and panics, and
`A`, whose output directory does not exist, is never signalled. -/
theorem StopObsoleteWorkers_resignal :
    StopObsoleteWorkers exampleFS ⟨exampleLogger [("B", 2), ("A", 1)], []⟩
        = .ok ⟨exampleLogger [("B", 2), ("A", 1)], [2]⟩
    ∧ goneFS.Stat (Join (exampleLogger []).Config.KubernetesFolder ["A"]) = .notExist
    ∧ mapGet (exampleLogger [("B", 2), ("A", 1)]).entries "A" = some 1
    ∧ StopObsoleteWorkers goneFS ⟨exampleLogger [("B", 2), ("A", 1)], [2]⟩
        = .error (.panicked "close of closed channel",
            ⟨exampleLogger [("B", 2), ("A", 1)], [2]⟩)
    ∧ (1 : Chan) ∉ ([2] : List Chan) := by
  exact ⟨rfl, rfl, rfl, rfl, by decide⟩

/-- C9, at a registry in which `B` was signalled by an earlier `StopObsoleteWorkers`
and has not deregistered yet: `A` is registered at the time of the call, but
`StopAllWorkers` reaches `stopWorker` for `B` first, closes the closed channel
and panics, whatever the workers do afterwards; `A` is never sent the stop
signal. -/
theorem StopAllWorkers_resignal :
    StopObsoleteWorkers exampleFS ⟨exampleLogger [("B", 2), ("A", 1)], []⟩
        = .ok ⟨exampleLogger [("B", 2), ("A", 1)], [2]⟩
    ∧ mapGet (exampleLogger [("B", 2), ("A", 1)]).entries "A" = some 1
    ∧ (∀ sched : List (List Event),
        StopAllWorkers sched ⟨exampleLogger [("B", 2), ("A", 1)], [2]⟩
          = .panicked ⟨exampleLogger [("B", 2), ("A", 1)], [2]⟩)
    ∧ (1 : Chan) ∉ ([2] : List Chan) := by
  exact ⟨rfl, rfl, fun _ => rfl, by decide⟩

/-- C10, at the registry holding `B`, whose output directory is gone: the first
`StopObsoleteWorkers` closes the channel of `B`; while `B` is still registered a
second `StopObsoleteWorkers`, as well as `StopAllWorkers`, reaches `stopWorker` for
`B` again, which closes the closed channel and panics. -/
theorem stopWorker_twice :
    StopObsoleteWorkers exampleFS ⟨exampleLogger [("B", 2)], []⟩
        = .ok ⟨exampleLogger [("B", 2)], [2]⟩
    ∧ stopWorker "B" ⟨exampleLogger [("B", 2)], [2]⟩
        = .error (.panicked "close of closed channel", ⟨exampleLogger [("B", 2)], [2]⟩)
    ∧ StopObsoleteWorkers exampleFS ⟨exampleLogger [("B", 2)], [2]⟩
        = .error (.panicked "close of closed channel", ⟨exampleLogger [("B", 2)], [2]⟩)
    ∧ StopAllWorkers [] ⟨exampleLogger [("B", 2)], [2]⟩
        = .panicked ⟨exampleLogger [("B", 2)], [2]⟩ := by
  exact ⟨rfl, rfl, rfl, rfl⟩

end Virtlet
